import Mathlib

/-!
Verification development for the terms-conditions-decoder risk engine.

The analytical core (`src/rules.ts`) is embedded shallowly: text is a
`List Char`, the regular expressions of the pattern bank are embedded as a
small backtracking matcher `Rx`/`matchRx` with JavaScript semantics
(leftmost start position wins, alternation prefers the left branch, greedy
quantifiers, `\b` word boundaries, case-insensitive comparison), and the
pipeline functions (`makeSnippet`, `dedupeOverlaps`, `computeSeverity`,
`selectHero`, `buildHeatmap`, `rulesScan`) are translated statement by
statement.  The DOM-facing annotation clearing (`src/content.ts`) is
embedded over an explicit tree model of the document.

JavaScript `Array.prototype.sort` is stable and sorts according to the
comparator; a stable sorted permutation is unique, so it is modelled by a
structural stable insertion sort (`stableSort`), which the kernel can
evaluate.
-/

namespace TC

/-- JavaScript word character (`\w` / the `\b` boundary class): ASCII
letters, digits and underscore. -/
def isWordChar (c : Char) : Bool :=
  c.isAlpha || c.isDigit || c = '_'

/-- JavaScript whitespace (`\s`, also the set trimmed by `String.trim`). -/
def jsSpace (c : Char) : Bool :=
  c = ' ' || c = '\t' || c = '\n' || c = '\r' || c = '\x0b' || c = '\x0c' ||
  c = '\u00A0' || c = '\u1680' || ('\u2000' ≤ c && c ≤ '\u200A') ||
  c = '\u2028' || c = '\u2029' || c = '\u202F' || c = '\u205F' ||
  c = '\u3000' || c = '\uFEFF'

/-- Regular-expression fragments used by the pattern bank.  Unbounded
repetition occurs in the source only as `\s+` (a character class), so a
char-class `plus`/bounded `rep` suffice; `grp` is capture group 1. -/
inductive Rx where
  | eps : Rx
  | pred (p : Char → Bool) : Rx
  | seq (a b : Rx) : Rx
  | alt (a b : Rx) : Rx
  | opt (a : Rx) : Rx
  | plus (p : Char → Bool) : Rx
  | rep (p : Char → Bool) (lo hi : Nat) : Rx
  | wb : Rx
  | grp (a : Rx) : Rx

/-- Matcher state: current position, and the span of capture group 1. -/
structure MSt where
  pos : Nat
  cap : Option (Nat × Nat)
deriving DecidableEq, Repr

/-- Length of the maximal run of characters satisfying `p` starting at `i`. -/
def runLen (p : Char → Bool) (t : List Char) (i : Nat) : Nat :=
  ((t.drop i).takeWhile p).length

/-- Word-boundary test at position `i` of `t` (JS `\b`). -/
def wordBoundary (t : List Char) (i : Nat) : Bool :=
  let prevW := if i = 0 then false else
    (match t[i-1]? with | some c => isWordChar c | none => false)
  let curW := (match t[i]? with | some c => isWordChar c | none => false)
  prevW != curW

/-- Greedy candidate end positions `pos+k` for `k = hi', hi'-1, ..., lo`
where `hi'` is the run length clamped by `hi`; empty when the run is
shorter than `lo`.  Longest-first order realises greedy backtracking. -/
def repStates (st : MSt) (n lo hi : Nat) : List MSt :=
  let m := min n hi
  if m < lo then []
  else (List.range (m - lo + 1)).map (fun j => { st with pos := st.pos + (m - j) })

/-- All ways `r` can match a prefix of `t` starting from state `st`, in
JavaScript backtracking priority order (head = the match JS reports). -/
def matchRx (t : List Char) : Rx → MSt → List MSt
  | .eps, st => [st]
  | .pred p, st =>
    match t[st.pos]? with
    | some c => if p c then [{ st with pos := st.pos + 1 }] else []
    | none => []
  | .seq a b, st => (matchRx t a st).flatMap (matchRx t b)
  | .alt a b, st => matchRx t a st ++ matchRx t b st
  | .opt a, st => matchRx t a st ++ [st]
  | .plus p, st => repStates st (runLen p t st.pos) 1 (runLen p t st.pos)
  | .rep p lo hi, st => repStates st (runLen p t st.pos) lo hi
  | .wb, st => if wordBoundary t st.pos then [st] else []
  | .grp a, st => (matchRx t a st).map (fun st2 => { st2 with cap := some (st.pos, st2.pos) })

/-- One `exec` of a global regex: try start positions `i, i+1, ...` and
return `(index, endPos, capture)` of the first position that matches. -/
def execAux (r : Rx) (t : List Char) : Nat → Nat → Option (Nat × Nat × Option (Nat × Nat))
  | _, 0 => none
  | i, fuel+1 =>
    match matchRx t r { pos := i, cap := none } with
    | st :: _ => some (i, st.pos, st.cap)
    | [] => execAux r t (i+1) fuel

def execRxFrom (r : Rx) (t : List Char) (i : Nat) : Option (Nat × Nat × Option (Nat × Nat)) :=
  execAux r t i (t.length + 1 - i)

/-- The repeated-`exec` loop of `findAll`/`countMatches`: collect matches,
resuming from each match's end (advancing one further on an empty match,
as JS does with `lastIndex`). -/
def findAllAux (r : Rx) (t : List Char) : Nat → Nat → List (Nat × Nat × Option (Nat × Nat))
  | _, 0 => []
  | i, fuel+1 =>
    match execRxFrom r t i with
    | none => []
    | some (s, e, cap) =>
      (s, e, cap) :: findAllAux r t (if e = s then e + 1 else e) fuel

def findAllRaw (r : Rx) (t : List Char) : List (Nat × Nat × Option (Nat × Nat)) :=
  findAllAux r t 0 (t.length + 1)

/-- JS `String.slice(a, b)` for `0 ≤ a`, clamping as `slice` does. -/
def sliceTake (t : List Char) (a b : Nat) : List Char :=
  (t.drop a).take (b - a)

/-- `findAll` of `rules.ts`: all matches with start index and matched text. -/
def findAll (r : Rx) (t : List Char) : List (Nat × List Char) :=
  (findAllRaw r t).map (fun x => (x.1, sliceTake t x.1 x.2.1))

/-- `countMatches` of `rules.ts`. -/
def countMatches (r : Rx) (t : List Char) : Nat :=
  (findAllRaw r t).length

/-- Capture group 1 of every match (JS `m[1]`), `none` when the group did
not participate. -/
def capturesOf (r : Rx) (t : List Char) : List (Option (List Char)) :=
  (findAllRaw r t).map (fun x => x.2.2.map (fun c => sliceTake t c.1 c.2))

-- Pattern-building helpers (all matching is case-insensitive, as every
-- regex in the bank carries the `i` flag).

/-- A single case-insensitive literal character. -/
def litc (c : Char) : Rx := .pred (fun d => d.toLower = c.toLower)

/-- A case-insensitive literal string. -/
def lits (s : String) : Rx := (s.toList.map litc).foldr Rx.seq .eps

/-- Sequencing of a list of fragments. -/
def sq (l : List Rx) : Rx := l.foldr Rx.seq .eps

/-- `[a-z]` under the `i` flag: any ASCII letter. -/
def ciAlpha (c : Char) : Bool := c.isAlpha

/-- `[-\s]`. -/
def dashOrSpace (c : Char) : Bool := c = '-' || jsSpace c

/-- `[a-z\s-]` under the `i` flag. -/
def phraseChar (c : Char) : Bool := ciAlpha c || jsSpace c || c = '-'

-- ---------------------------- Regex bank ----------------------------
-- Each definition embeds the like-named entry of `RE` in `rules.ts`.

/-- `(auto[-\s]?renew(?:al)?|automatically\s+renews?)` -/
def AUTO_RENEW : Rx :=
  .alt (sq [lits "auto", .opt (.pred dashOrSpace), lits "renew", .opt (lits "al")])
       (sq [lits "automatically", .plus jsSpace, lits "renew", .opt (litc 's')])

/-- `\bcancel(?:lation)?\b|\bterminate\b` -/
def CANCELLATION : Rx :=
  .alt (sq [.wb, lits "cancel", .opt (lits "lation"), .wb])
       (sq [.wb, lits "terminate", .wb])

/-- `\barbitration\b|\bAAA\b|\bJAMS\b` -/
def ARBITRATION : Rx :=
  .alt (sq [.wb, lits "arbitration", .wb])
       (.alt (sq [.wb, lits "aaa", .wb]) (sq [.wb, lits "jams", .wb]))

/-- `\bclass\s+action\b[\s\S]{0,80}\b(waiver|prohibit(?:ed)?|release|not\s+allowed)\b` -/
def CLASS_ACTION : Rx :=
  sq [.wb, lits "class", .plus jsSpace, lits "action", .wb,
      .rep (fun _ => true) 0 80, .wb,
      .grp (.alt (lits "waiver")
        (.alt (sq [lits "prohibit", .opt (lits "ed")])
          (.alt (lits "release") (sq [lits "not", .plus jsSpace, lits "allowed"])))),
      .wb]

/-- `\bfee(?:s)?\b|\bcharge(?:s|d)?\b|\bbilling\b` -/
def FEES : Rx :=
  .alt (sq [.wb, lits "fee", .opt (litc 's'), .wb])
       (.alt (sq [.wb, lits "charge", .opt (.alt (litc 's') (litc 'd')), .wb])
             (sq [.wb, lits "billing", .wb]))

/-- `(\$|£|€)\s?\d{1,4}(?:\.\d{2})?` -/
def PRICE : Rx :=
  sq [.grp (.alt (litc '$') (.alt (litc '£') (litc '€'))),
      .opt (.pred jsSpace), .rep Char.isDigit 1 4,
      .opt (sq [litc '.', .rep Char.isDigit 2 2])]

/-- `\b(month|mo\.?|monthly|year|yr|annual(?:ly)?|week|wk|day|daily)\b` -/
def CADENCE : Rx :=
  sq [.wb,
      .grp (.alt (lits "month")
        (.alt (sq [lits "mo", .opt (litc '.')])
          (.alt (lits "monthly")
            (.alt (lits "year")
              (.alt (lits "yr")
                (.alt (sq [lits "annual", .opt (lits "ly")])
                  (.alt (lits "week")
                    (.alt (lits "wk") (.alt (lits "day") (lits "daily")))))))))),
      .wb]

/-- `\bthird[-\s]?party\b` -/
def THIRD_PARTY : Rx :=
  sq [.wb, lits "third", .opt (.pred dashOrSpace), lits "party", .wb]

/-- `\bshare(?:s|d|ing)?\b` -/
def SHARE : Rx :=
  sq [.wb, lits "share", .opt (.alt (litc 's') (.alt (litc 'd') (lits "ing"))), .wb]

/-- `\bsell(?:s|ing|sold)?\b` -/
def SELL : Rx :=
  sq [.wb, lits "sell", .opt (.alt (litc 's') (.alt (lits "ing") (lits "sold"))), .wb]

/-- `\baffiliate(?:s)?\b` -/
def AFFILIATE : Rx := sq [.wb, lits "affiliate", .opt (litc 's'), .wb]

/-- `\bpartner(?:s)?\b` -/
def PARTNER : Rx := sq [.wb, lits "partner", .opt (litc 's'), .wb]

/-- `\badvertis(?:ing|ers?)\b` -/
def ADVERTISING : Rx :=
  sq [.wb, lits "advertis", .alt (lits "ing") (sq [lits "er", .opt (litc 's')]), .wb]

/-- `\banalytic(?:s|al)\b` -/
def ANALYTICS : Rx :=
  sq [.wb, lits "analytic", .alt (litc 's') (lits "al"), .wb]

/-- `\bshare(?:s|d|ing)?\s+(?:with|to)\s+([a-z][a-z\s-]{1,40})` -/
def SHARE_WITH : Rx :=
  sq [.wb, lits "share", .opt (.alt (litc 's') (.alt (litc 'd') (lits "ing"))),
      .plus jsSpace, .alt (lits "with") (lits "to"), .plus jsSpace,
      .grp (sq [.pred ciAlpha, .rep phraseChar 1 40])]

/-- `\bsell(?:s|ing|sold)?\s+(?:to|with)\s+([a-z][a-z\s-]{1,40})` -/
def SELL_TO : Rx :=
  sq [.wb, lits "sell", .opt (.alt (litc 's') (.alt (lits "ing") (lits "sold"))),
      .plus jsSpace, .alt (lits "to") (lits "with"), .plus jsSpace,
      .grp (sq [.pred ciAlpha, .rep phraseChar 1 40])]

/-- `\bour\s+([a-z][a-z\s-]{0,20}\s+partners)\b` -/
def OUR_SOMETHING_PARTNERS : Rx :=
  sq [.wb, lits "our", .plus jsSpace,
      .grp (sq [.pred ciAlpha, .rep phraseChar 0 20, .plus jsSpace, lits "partners"]),
      .wb]



-- --------------------- Strings: trim / normalize ---------------------

/-- JS `String.trim`. -/
def jsTrim (s : List Char) : List Char :=
  ((s.dropWhile jsSpace).reverse.dropWhile jsSpace).reverse

/-- JS `replace(/\s+/g, " ")`: each maximal whitespace run becomes one
space.  The flag records whether the previous character was whitespace. -/
def collapseWsAux : Bool → List Char → List Char
  | _, [] => []
  | lastSp, c :: rest =>
    if jsSpace c then
      if lastSp then collapseWsAux true rest else ' ' :: collapseWsAux true rest
    else c :: collapseWsAux false rest

def collapseWs (s : List Char) : List Char := collapseWsAux false s

-- ------------------------- Stable sorting ---------------------------

/-- Insert `x` in front of the first element `y` with `le x y`. -/
def insertS (le : α → α → Bool) (x : α) : List α → List α
  | [] => [x]
  | y :: ys => if le x y then x :: y :: ys else y :: insertS le x ys

/-- Stable insertion sort.  `JS Array.prototype.sort` is specified to be
stable and to order according to the comparator; for a comparator that is
a total preorder the stable sorted permutation is unique, so this models
the source's `sort` calls exactly (`le a b` means `comparator a b ≤ 0`). -/
def stableSort (le : α → α → Bool) : List α → List α
  | [] => []
  | x :: xs => insertS le x (stableSort le xs)

-- --------------------------- Data model -----------------------------

/-- The closed `RiskType` union of `types.ts`. -/
inductive RiskType where
  | auto_renewal | cancellation | arbitration | class_action | fees | data_sharing
deriving DecidableEq, Repr

/-- A `Hit` of `types.ts`.  The source field `end` is a Lean keyword and
is called `stop` here; offsets are `Int` to mirror JS number arithmetic
in the resolver (lengths of malformed spans can be negative). -/
structure Hit where
  type : RiskType
  start : Int
  stop : Int
  text : List Char
  snippet : List Char
deriving DecidableEq, Repr

/-- The `"Low" | "Medium" | "High"` union. -/
inductive Sev where
  | Low | Medium | High
deriving DecidableEq, Repr

/-- Rank for comparing severities (Low < Medium < High). -/
def sevRank : Sev → Nat
  | .Low => 0
  | .Medium => 1
  | .High => 2

/-- The seven fixed term buckets of the heatmap. -/
structure HeatCounts where
  third_party : Nat
  share : Nat
  sell : Nat
  affiliate : Nat
  partner : Nat
  advertising : Nat
  analytics : Nat
deriving DecidableEq, Repr

structure Heatmap where
  counts : HeatCounts
  level : Sev
  topRecipients : List (List Char × Nat)
deriving DecidableEq, Repr

structure RulesResult where
  hits : List Hit
  severity : Sev
  hero : Option String
  heatmap : Heatmap
deriving DecidableEq, Repr

-- --------------------------- Tunables -------------------------------

def SNIPPET_WINDOW : Nat := 250
def MAX_HIGHLIGHTS : Nat := 50

-- -------------------------- makeSnippet -----------------------------

/-- The sentence-boundary scan of `makeSnippet`: the global `exec` loop of
`/[.!?](?:\s|$)/g` over the region, pushing `match.index + 1` each time.
One character per step; `prevP` records whether the previous character was
sentence punctuation, `i` is the index of the current character.  A
punctuation followed by whitespace pushes a boundary when the whitespace
is reached; trailing punctuation pushes at end of region (the `$` case). -/
def sentBndsAux : Bool → Nat → List Char → List Nat
  | prevP, i, [] => if prevP then [i] else []
  | prevP, i, c :: rest =>
    let curP := c == '.' || c == '!' || c == '?'
    if prevP && jsSpace c then i :: sentBndsAux curP (i + 1) rest
    else sentBndsAux curP (i + 1) rest

/-- The boundary-interval search loop of `makeSnippet`: first consecutive
pair `(a, b)` of the boundary list with `a ≤ hitOff < b`. -/
def sentenceLoop : List Nat → Nat → Option (Nat × Nat)
  | a :: b :: rest, hitOff =>
    if a ≤ hitOff ∧ hitOff < b then some (a, b) else sentenceLoop (b :: rest) hitOff
  | _, _ => none

/-- Lines 83–123 of `makeSnippet`: region extraction, sentence-boundary
search, and the short-sentence fallback.  Returns the sentence together
with `sentenceStart` (needed by the truncation branch).  Nat subtraction
coincides with the source's `Math.max(0, ...)` clamping. -/
def snippetCore (text : List Char) (start stop window : Nat) : List Char × Nat :=
  let searchStart := start - 500
  let searchEnd := min text.length (stop + 500)
  let region := sliceTake text searchStart searchEnd
  let boundaries := 0 :: (sentBndsAux false 0 region ++ [region.length])
  let hitOffsetInRegion := start - searchStart
  let sb := (sentenceLoop boundaries hitOffsetInRegion).getD (0, region.length)
  let sentence0 := jsTrim (sliceTake region sb.1 sb.2)
  let sentence1 :=
    if sentence0.length < 30 then
      jsTrim (sliceTake text (start - window) (min text.length (stop + window)))
    else sentence0
  (sentence1, sb.1)

/-- Lines 126–134 of `makeSnippet`: truncation of an over-long sentence
to the ±250 window around the hit offset.  Note the final guard compares
`excerptEnd` against the length of the *already truncated* (and possibly
ellipsis-prefixed) string, exactly as the source does. -/
def truncateSentence (sentence : List Char) (hitOffset : Nat) : List Char :=
  let excerptStart := hitOffset - 250
  let excerptEnd := min sentence.length (hitOffset + 250)
  let s1 := jsTrim (sliceTake sentence excerptStart excerptEnd)
  let s2 := if 0 < excerptStart then '…' :: s1 else s1
  if excerptEnd < s2.length then s2 ++ ['…'] else s2

/-- The truncation step with the trailing-ellipsis statement deleted. -/
def truncateSentenceNoSuffix (sentence : List Char) (hitOffset : Nat) : List Char :=
  let excerptStart := hitOffset - 250
  let excerptEnd := min sentence.length (hitOffset + 250)
  let s1 := jsTrim (sliceTake sentence excerptStart excerptEnd)
  if 0 < excerptStart then '…' :: s1 else s1

/-- `makeSnippet` of `rules.ts`. -/
def makeSnippet (text : List Char) (start stop window : Nat) : List Char :=
  let core := snippetCore text start stop window
  if core.1.length > 500 then
    truncateSentence core.1 (start - (start - 500) - core.2)
  else core.1

/-- `makeSnippet` with the trailing-ellipsis statement deleted.  Proving
`makeSnippet = makeSnippetNoSuffix` shows that statement is dead code. -/
def makeSnippetNoSuffix (text : List Char) (start stop window : Nat) : List Char :=
  let core := snippetCore text start stop window
  if core.1.length > 500 then
    truncateSentenceNoSuffix core.1 (start - (start - 500) - core.2)
  else core.1

-- ------------------------- dedupeOverlaps ---------------------------

/-- The sort comparator `(a, b) => a.start - b.start || b.end - a.end`:
`hitLe a b` iff the comparator is `≤ 0`. -/
def hitLe (a b : Hit) : Bool :=
  decide (a.start < b.start ∨ (a.start = b.start ∧ b.stop ≤ a.stop))

/-- One iteration of the `dedupeOverlaps` loop; the accumulator is the
`out` array in reverse (head = `out[out.length - 1]`). -/
def dedupeStep (out : List Hit) (h : Hit) : List Hit :=
  match out with
  | [] => [h]
  | last :: rest =>
    if h.start ≤ last.stop ∧ h.stop ≥ last.start then
      if h.stop - h.start > last.stop - last.start then h :: rest else last :: rest
    else h :: last :: rest

/-- `dedupeOverlaps` of `rules.ts`. -/
def dedupeOverlaps (hits : List Hit) : List Hit :=
  ((stableSort hitLe hits).foldl dedupeStep []).reverse

-- --------------------- Severity, hero, heatmap ----------------------

/-- JS truthiness of an optional string (`undefined` and `""` are falsy). -/
def jsTruthyStr (s : Option (List Char)) : Bool :=
  match s with
  | some l => !l.isEmpty
  | none => false

/-- `findPriceAndCadenceNearby` of `rules.ts`. -/
def findPriceAndCadenceNearby (text : List Char) (start stop : Int) (window : Int) :
    Option (List Char) × Option (List Char) :=
  let a := (max 0 (start - window)).toNat
  let b := (min (text.length : Int) (stop + window)).toNat
  let area := sliceTake text a b
  let price := ((findAll PRICE area).head?).map (fun x => x.2)
  let cadence := ((findAll CADENCE area).head?).map (fun x => x.2)
  (if jsTruthyStr price then price.map jsTrim else none,
   if jsTruthyStr cadence then cadence.map (fun c => jsTrim (c.map Char.toLower)) else none)

/-- `scoreToSeverity` of `rules.ts`. -/
def scoreToSeverity (score : Nat) : Sev :=
  if score ≥ 4 then .High else if score ≥ 2 then .Medium else .Low

/-- `computeSeverity` of `rules.ts`. -/
def computeSeverity (hits : List Hit) (fullText : List Char) : Sev :=
  let autoScore :=
    match hits.find? (fun h => decide (h.type = RiskType.auto_renewal)) with
    | some auto =>
      let near := findPriceAndCadenceNearby fullText auto.start auto.stop 160
      if jsTruthyStr near.1 || jsTruthyStr near.2 then 3 else 2
    | none => 0
  let score := autoScore
    + (if hits.any (fun h => decide (h.type = RiskType.arbitration)) then 3 else 0)
    + (if hits.any (fun h => decide (h.type = RiskType.class_action)) then 2 else 0)
    + (if hits.any (fun h => decide (h.type = RiskType.cancellation)) then 1 else 0)
    + (if hits.any (fun h => decide (h.type = RiskType.fees)) then 1 else 0)
  scoreToSeverity score

/-- `selectHero` of `rules.ts`. -/
def selectHero (hits : List Hit) (fullText : List Char) : Option String :=
  if hits.any (fun h => decide (h.type = RiskType.fees)) then
    some "💰 Fees/charges apply - review billing terms carefully."
  else if hits.any (fun h => decide (h.type = RiskType.cancellation)) then
    some "🔄 Cancellation restrictions found - check how to cancel."
  else
    match hits.find? (fun h => decide (h.type = RiskType.auto_renewal)) with
    | some auto =>
      let near := findPriceAndCadenceNearby fullText auto.start auto.stop 160
      if jsTruthyStr near.1 || jsTruthyStr near.2 then
        let part := String.intercalate "/"
          ((([near.1, near.2].filterMap id).filter (fun l => !l.isEmpty)).map String.mk)
        some ("Auto-renews " ++ (if !part.isEmpty then "at " ++ part else "") ++
              " — set a cancel reminder.")
      else some "⚠️ Auto-renewal detected. Review cancellation terms."
    | none => none

-- ---------------------------- Heatmap -------------------------------

/-- The normalization inside `bump`: lower-case, collapse whitespace,
trim. -/
def normalizePhrase (p : List Char) : List Char :=
  jsTrim (collapseWs (p.map Char.toLower))

/-- `bump` of `buildHeatmap` over an insertion-ordered association list
(the JS `Map` iterates in insertion order). -/
def bump (m : List (List Char × Nat)) (phrase : Option (List Char)) :
    List (List Char × Nat) :=
  match phrase with
  | none => m
  | some ph =>
    let p := normalizePhrase ph
    if p = [] then m
    else if m.any (fun e => decide (e.1 = p)) then
      m.map (fun e => if e.1 = p then (e.1, e.2 + 1) else e)
    else m ++ [(p, 1)]

/-- The recipient phrase→count map of `buildHeatmap`, in insertion order:
all `SHARE_WITH` captures, then `SELL_TO`, then `OUR_SOMETHING_PARTNERS`. -/
def recipientEntries (t : List Char) : List (List Char × Nat) :=
  (capturesOf OUR_SOMETHING_PARTNERS t).foldl bump
    ((capturesOf SELL_TO t).foldl bump
      ((capturesOf SHARE_WITH t).foldl bump []))

/-- The comparator `(a, b) => b[1] - a[1]` (count descending). -/
def recipLe (a b : List Char × Nat) : Bool := decide (b.2 ≤ a.2)

/-- `buildHeatmap` of `rules.ts`. -/
def buildHeatmap (t : List Char) : Heatmap :=
  let counts : HeatCounts :=
    { third_party := countMatches THIRD_PARTY t
      share := countMatches SHARE t
      sell := countMatches SELL t
      affiliate := countMatches AFFILIATE t
      partner := countMatches PARTNER t
      advertising := countMatches ADVERTISING t
      analytics := countMatches ANALYTICS t }
  let total := counts.third_party + counts.share + counts.sell + counts.affiliate +
    counts.partner + counts.advertising + counts.analytics
  let level : Sev := if total ≥ 15 then .High else if total ≥ 5 then .Medium else .Low
  { counts := counts, level := level,
    topRecipients := (stableSort recipLe (recipientEntries t)).take 5 }

-- --------------------------- Main entry -----------------------------

/-- `pushAll` of `rulesScan`: one `Hit` per match of `regex`. -/
def pushAllHits (t : List Char) (ty : RiskType) (r : Rx) : List Hit :=
  (findAll r t).map (fun x =>
    { type := ty
      start := (x.1 : Int)
      stop := ((x.1 + x.2.length : Nat) : Int)
      text := x.2
      snippet := makeSnippet t x.1 (x.1 + x.2.length) SNIPPET_WINDOW })

/-- `rulesScan` of `rules.ts`: collect raw hits for the five span
detectors (in source order), dedupe, cap at `MAX_HIGHLIGHTS`, then attach
heatmap, severity and hero. -/
def rulesScan (t : List Char) : RulesResult :=
  let hits :=
    pushAllHits t RiskType.auto_renewal AUTO_RENEW ++
    pushAllHits t RiskType.arbitration ARBITRATION ++
    pushAllHits t RiskType.class_action CLASS_ACTION ++
    pushAllHits t RiskType.cancellation CANCELLATION ++
    pushAllHits t RiskType.fees FEES
  let d := dedupeOverlaps hits
  let cleaned := if d.length > MAX_HIGHLIGHTS then d.take MAX_HIGHLIGHTS else d
  { hits := cleaned
    severity := computeSeverity cleaned t
    hero := selectHero cleaned t
    heatmap := buildHeatmap t }



-- ===================== Concrete scenario texts ======================

/-- The scenario text of the auto-renewal/cancellation test case. -/
def scenarioText : List Char :=
  "This agreement automatically renews for $9.99/month unless cancelled.".toList

/-- C2 (counterexample): on the scenario text the scan yields no span of
type `cancellation` (the pattern `\bcancel(?:lation)?\b|\bterminate\b`
cannot match the word "cancelled": after "cancel" the required word
boundary falls between two letters), and the severity is `Medium`, not
`High`. -/
theorem scenario_autorenew_counterexample :
    (rulesScan scenarioText).severity ≠ Sev.High ∧
    (rulesScan scenarioText).hits.all
      (fun h => decide (h.type ≠ RiskType.cancellation)) = true := by
  constructor
  · decide
  · decide

/-- C2 (amended): on the scenario text the scan yields exactly one span,
`auto_renewal` at `[15, 35)` with matched text "automatically renews"
(there is no `cancellation` span, since the cancellation pattern matches
only the whole words cancel/cancellation/terminate); the score is 3
(auto-renewal with a price and cadence nearby) giving severity `Medium`;
and the hero is the auto-renewal line interpolating the nearby price and
cadence. -/
theorem scenario_autorenew_amended :
    (rulesScan scenarioText).hits =
      [{ type := RiskType.auto_renewal, start := 15, stop := 35,
         text := "automatically renews".toList, snippet := scenarioText }] ∧
    (rulesScan scenarioText).severity = Sev.Medium ∧
    (rulesScan scenarioText).hero =
      some "Auto-renews at $9.99/month — set a cancel reminder." := by
  refine ⟨by decide, by decide, by decide⟩

/-- C5: `scan ""` on the empty string returns an empty span list, severity
`Low`, no hero line, a heatmap whose seven bucket counts are all `0` with
level `Low`, and an empty `topRecipients` list.  (The embedding is a total
function, so no error is possible.) -/
theorem rulesScan_empty_text :
    rulesScan [] =
      { hits := [], severity := Sev.Low, hero := none,
        heatmap :=
          { counts := { third_party := 0, share := 0, sell := 0, affiliate := 0,
                        partner := 0, advertising := 0, analytics := 0 },
            level := Sev.Low, topRecipients := [] } } := by
  decide

/-- C3: on exactly the two overlapping spans `[10,20)` of type `fees` and
`[15,25)` of type `cancellation` (equal length 10), the resolver returns
exactly `[10,20)`: the tie is broken in favour of the span that sorts
first under (start ascending, end descending), so `[10,20)` is accepted
and `[15,25)` discarded — in either input order. -/
theorem dedupe_tie_keeps_first_sorted :
    dedupeOverlaps
      [{ type := RiskType.fees, start := 10, stop := 20, text := [], snippet := [] },
       { type := RiskType.cancellation, start := 15, stop := 25, text := [], snippet := [] }] =
      [{ type := RiskType.fees, start := 10, stop := 20, text := [], snippet := [] }] ∧
    dedupeOverlaps
      [{ type := RiskType.cancellation, start := 15, stop := 25, text := [], snippet := [] },
       { type := RiskType.fees, start := 10, stop := 20, text := [], snippet := [] }] =
      [{ type := RiskType.fees, start := 10, stop := 20, text := [], snippet := [] }] := by
  refine ⟨by decide, by decide⟩

/-- C6 (counterexample): the resolver does not reject a malformed span
with `end ≤ start` — a singleton malformed span is returned unchanged in
the output instead of being dropped. -/
theorem dedupe_malformed_counterexample :
    dedupeOverlaps [{ type := RiskType.fees, start := 5, stop := 3, text := [], snippet := [] }] =
      [{ type := RiskType.fees, start := 5, stop := 3, text := [], snippet := [] }] := by
  decide

/-- C6 (amended): the resolver performs no validation whatsoever: any
span whose `end ≤ start` is silently tolerated — given just that span it
is returned unchanged, not rejected.  (The non-overlap invariant is only
guaranteed when every input span satisfies `start < end`.) -/
theorem dedupe_malformed_tolerated (h : Hit) (_hm : h.stop ≤ h.start) :
    dedupeOverlaps [h] = [h] := by
  simp [dedupeOverlaps, stableSort, insertS, dedupeStep]

/-- Witness for C6 (amended) at the concrete malformed span `[5, 3)`. -/
theorem dedupe_malformed_tolerated_witness :
    dedupeOverlaps [{ type := RiskType.fees, start := 5, stop := 3, text := [], snippet := [] }] =
      [{ type := RiskType.fees, start := 5, stop := 3, text := [], snippet := [] }] :=
  dedupe_malformed_tolerated
    { type := RiskType.fees, start := 5, stop := 3, text := [], snippet := [] }
    (by decide)


-- ==================== Stable-sort lemmas ============================

theorem insertS_perm (le : α → α → Bool) (x : α) (l : List α) :
    List.Perm (insertS le x l) (x :: l) := by
  induction l with
  | nil => simp [insertS]
  | cons y ys ih =>
    simp only [insertS]
    split
    · exact List.Perm.refl _
    · exact (ih.cons y).trans (List.Perm.swap x y ys)

theorem stableSort_perm (le : α → α → Bool) (l : List α) :
    List.Perm (stableSort le l) l := by
  induction l with
  | nil => simp [stableSort]
  | cons x xs ih => exact (insertS_perm le x (stableSort le xs)).trans (ih.cons x)

theorem mem_stableSort {le : α → α → Bool} {l : List α} {a : α} :
    a ∈ stableSort le l ↔ a ∈ l :=
  (stableSort_perm le l).mem_iff

theorem mem_insertS {le : α → α → Bool} {x a : α} {l : List α} :
    a ∈ insertS le x l ↔ a = x ∨ a ∈ l := by
  rw [(insertS_perm le x l).mem_iff, List.mem_cons]

theorem pairwise_insertS {le : α → α → Bool}
    (htrans : ∀ a b c, le a b = true → le b c = true → le a c = true)
    (htotal : ∀ a b, le a b = true ∨ le b a = true)
    (x : α) {l : List α} (hl : l.Pairwise (fun a b => le a b = true)) :
    (insertS le x l).Pairwise (fun a b => le a b = true) := by
  induction l with
  | nil => simp [insertS]
  | cons y ys ih =>
    rcases List.pairwise_cons.mp hl with ⟨hy, hys⟩
    simp only [insertS]
    split
    case isTrue hxy =>
      refine List.pairwise_cons.mpr ⟨?_, hl⟩
      intro z hz
      rcases List.mem_cons.mp hz with rfl | hz
      · exact hxy
      · exact htrans x y z hxy (hy z hz)
    case isFalse hxy =>
      refine List.pairwise_cons.mpr ⟨?_, ih hys⟩
      intro z hz
      rcases mem_insertS.mp hz with rfl | hz
      · rcases htotal z y with h | h
        · exact absurd h hxy
        · exact h
      · exact hy z hz

theorem pairwise_stableSort {le : α → α → Bool}
    (htrans : ∀ a b c, le a b = true → le b c = true → le a c = true)
    (htotal : ∀ a b, le a b = true ∨ le b a = true) (l : List α) :
    (stableSort le l).Pairwise (fun a b => le a b = true) := by
  induction l with
  | nil => simp [stableSort]
  | cons x xs ih => exact pairwise_insertS htrans htotal x ih

theorem filter_insertS_pos {le : α → α → Bool} {p : α → Bool} {x : α} {l : List α}
    (hx : p x = true) (hle : ∀ y ∈ l, p y = true → le x y = true) :
    (insertS le x l).filter p = x :: l.filter p := by
  induction l with
  | nil => simp [insertS, hx]
  | cons y ys ih =>
    simp only [insertS]
    split
    case isTrue hxy => simp [hx]
    case isFalse hxy =>
      cases hpy : p y with
      | true => exact absurd (hle y (List.mem_cons_self y ys) hpy) hxy
      | false =>
        simp only [List.filter_cons, hpy]
        exact ih (fun z hz hpz => hle z (List.mem_cons_of_mem y hz) hpz)

theorem filter_insertS_neg {le : α → α → Bool} {p : α → Bool} {x : α} {l : List α}
    (hx : p x = false) :
    (insertS le x l).filter p = l.filter p := by
  induction l with
  | nil => simp [insertS, hx]
  | cons y ys ih =>
    simp only [insertS]
    split
    · simp [hx]
    · simp only [List.filter_cons, ih]

/-- Stability of `stableSort`: a filter that only keeps mutually tied
elements is unchanged by sorting (tied elements keep their input order). -/
theorem filter_stableSort {le : α → α → Bool} {p : α → Bool}
    (htied : ∀ a b, p a = true → p b = true → le a b = true) (l : List α) :
    (stableSort le l).filter p = l.filter p := by
  induction l with
  | nil => simp [stableSort]
  | cons x xs ih =>
    simp only [stableSort]
    cases hpx : p x with
    | true =>
      rw [filter_insertS_pos hpx
        (fun y _ hpy => htied x y hpx hpy), ih]
      simp [List.filter_cons, hpx]
    | false =>
      rw [filter_insertS_neg hpx, ih]
      simp [List.filter_cons, hpx]

-- ========================= C8 lemmas ================================

theorem sevRank_scoreToSeverity_mono {m n : Nat} (h : m ≤ n) :
    sevRank (scoreToSeverity m) ≤ sevRank (scoreToSeverity n) := by
  unfold scoreToSeverity
  split_ifs <;> simp [sevRank] <;> omega

/-- C8: for every text and every span set containing no arbitration span,
inserting an arbitration span anywhere in the set can only raise or keep
equal (never lower) the severity computed by `computeSeverity`. -/
theorem computeSeverity_arbitration_monotone (t : List Char) (l₁ l₂ : List Hit)
    (arb : Hit) (ha : arb.type = RiskType.arbitration)
    (hno : ∀ h ∈ l₁ ++ l₂, h.type ≠ RiskType.arbitration) :
    sevRank (computeSeverity (l₁ ++ l₂) t) ≤
      sevRank (computeSeverity (l₁ ++ arb :: l₂) t) := by
  have harbAuto : (decide (arb.type = RiskType.auto_renewal)) = false := by
    simp [ha]
  have hfind :
      (l₁ ++ arb :: l₂).find? (fun h => decide (h.type = RiskType.auto_renewal)) =
      (l₁ ++ l₂).find? (fun h => decide (h.type = RiskType.auto_renewal)) := by
    simp [List.find?_append, List.find?_cons, harbAuto]
  have hany : ∀ ty : RiskType, ty ≠ RiskType.arbitration →
      ((l₁ ++ arb :: l₂).any (fun h => decide (h.type = ty)) =
       (l₁ ++ l₂).any (fun h => decide (h.type = ty))) := by
    intro ty hty
    have : (decide (arb.type = ty)) = false := by
      simp [ha]
      exact fun hcontra => hty hcontra.symm
    simp [List.any_append, List.any_cons, this]
  have harb1 : (l₁ ++ l₂).any (fun h => decide (h.type = RiskType.arbitration)) = false := by
    rw [List.any_eq_false]
    intro h hmem
    simpa using hno h hmem
  have harb2 : (l₁ ++ arb :: l₂).any (fun h => decide (h.type = RiskType.arbitration)) = true := by
    rw [List.any_eq_true]
    exact ⟨arb, by simp, by simp [ha]⟩
  simp only [computeSeverity, hfind,
    hany RiskType.class_action (by decide),
    hany RiskType.cancellation (by decide),
    hany RiskType.fees (by decide),
    harb1, harb2, if_true, if_false, Bool.false_eq_true, if_neg, ite_true, ite_false]
  exact sevRank_scoreToSeverity_mono (by omega)

/-- Witness for C8 at a concrete input: the empty span set over the empty
text, with the arbitration span `[0, 11)`. -/
theorem computeSeverity_arbitration_monotone_witness :
    sevRank (computeSeverity ([] ++ []) []) ≤
      sevRank (computeSeverity ([] ++
        { type := RiskType.arbitration, start := 0, stop := 11,
          text := "arbitration".toList, snippet := [] } :: []) []) :=
  computeSeverity_arbitration_monotone [] [] []
    { type := RiskType.arbitration, start := 0, stop := 11,
      text := "arbitration".toList, snippet := [] }
    rfl (by intro h hmem; simp at hmem)

-- ========================= C7 theorem ===============================

theorem recipLe_trans : ∀ a b c : List Char × Nat,
    recipLe a b = true → recipLe b c = true → recipLe a c = true := by
  intro a b c hab hbc
  simp only [recipLe, decide_eq_true_eq] at *
  omega

theorem recipLe_total : ∀ a b : List Char × Nat,
    recipLe a b = true ∨ recipLe b a = true := by
  intro a b
  simp only [recipLe, decide_eq_true_eq]
  omega

/-- C7: for every text, the heatmap level is `High` exactly when the total
of the seven bucket counts is at least 15, `Medium` exactly when it is at
least 5 and below 15, and `Low` otherwise; `topRecipients` has at most 5
entries, its counts are non-increasing, and entries with equal counts
appear in first-encountered order (each equal-count slice is a sublist of
the insertion-ordered phrase map `recipientEntries`). -/
theorem buildHeatmap_level_and_topRecipients (t : List Char) :
    ((buildHeatmap t).level = Sev.High ↔
      15 ≤ (buildHeatmap t).counts.third_party + (buildHeatmap t).counts.share +
        (buildHeatmap t).counts.sell + (buildHeatmap t).counts.affiliate +
        (buildHeatmap t).counts.partner + (buildHeatmap t).counts.advertising +
        (buildHeatmap t).counts.analytics) ∧
    ((buildHeatmap t).level = Sev.Medium ↔
      (5 ≤ (buildHeatmap t).counts.third_party + (buildHeatmap t).counts.share +
        (buildHeatmap t).counts.sell + (buildHeatmap t).counts.affiliate +
        (buildHeatmap t).counts.partner + (buildHeatmap t).counts.advertising +
        (buildHeatmap t).counts.analytics ∧
       (buildHeatmap t).counts.third_party + (buildHeatmap t).counts.share +
        (buildHeatmap t).counts.sell + (buildHeatmap t).counts.affiliate +
        (buildHeatmap t).counts.partner + (buildHeatmap t).counts.advertising +
        (buildHeatmap t).counts.analytics < 15)) ∧
    ((buildHeatmap t).level = Sev.Low ↔
      (buildHeatmap t).counts.third_party + (buildHeatmap t).counts.share +
        (buildHeatmap t).counts.sell + (buildHeatmap t).counts.affiliate +
        (buildHeatmap t).counts.partner + (buildHeatmap t).counts.advertising +
        (buildHeatmap t).counts.analytics < 5) ∧
    (buildHeatmap t).topRecipients.length ≤ 5 ∧
    List.Chain' (fun a b => b.2 ≤ a.2) (buildHeatmap t).topRecipients ∧
    ∀ c : Nat,
      List.Sublist ((buildHeatmap t).topRecipients.filter (fun e => decide (e.2 = c)))
        ((recipientEntries t).filter (fun e => decide (e.2 = c))) := by
  simp only [buildHeatmap]
  refine ⟨?_, ?_, ?_, ?_, ?_, ?_⟩
  · split_ifs with h1 h2 <;> simp_all <;> omega
  · split_ifs with h1 h2 <;> simp_all <;> omega
  · split_ifs with h1 h2 <;> simp_all <;> omega
  · simpa using List.length_take_le 5 _
  · have hp : (stableSort recipLe (recipientEntries t)).Pairwise
        (fun a b => recipLe a b = true) :=
      pairwise_stableSort recipLe_trans recipLe_total _
    have hp2 : ((stableSort recipLe (recipientEntries t)).take 5).Pairwise
        (fun a b => recipLe a b = true) :=
      hp.sublist (List.take_sublist 5 _)
    exact (hp2.imp (fun hab => by
      simpa [recipLe] using hab)).chain'
  · intro c
    have hfe : (stableSort recipLe (recipientEntries t)).filter
        (fun e => decide (e.2 = c)) =
        (recipientEntries t).filter (fun e => decide (e.2 = c)) :=
      filter_stableSort (by
        intro a b hpa hpb
        simp only [decide_eq_true_eq] at hpa hpb
        simp [recipLe, hpa, hpb]) _
    have hsub : List.Sublist
        (((stableSort recipLe (recipientEntries t)).take 5).filter
          (fun e => decide (e.2 = c)))
        ((stableSort recipLe (recipientEntries t)).filter
          (fun e => decide (e.2 = c))) :=
      (List.take_sublist 5 _).filter _
    rw [hfe] at hsub
    exact hsub


-- ========================= C4 lemmas ================================

theorem jsTrim_length_le (s : List Char) : (jsTrim s).length ≤ s.length := by
  have h1 : (s.dropWhile jsSpace).length ≤ s.length :=
    (List.dropWhile_sublist _).length_le
  have h2 : ((s.dropWhile jsSpace).reverse.dropWhile jsSpace).length ≤
      (s.dropWhile jsSpace).reverse.length :=
    (List.dropWhile_sublist _).length_le
  simp only [jsTrim, List.length_reverse] at *
  omega

theorem sliceTake_length_le (t : List Char) (a b : Nat) :
    (sliceTake t a b).length ≤ b - a := by
  simp only [sliceTake]
  exact List.length_take_le _ _

set_option maxRecDepth 40000 in
set_option maxHeartbeats 2000000 in
/-- C4 (counterexample): `makeSnippet` is not non-empty on every valid
span — on the one-character whitespace text with span `[0, 1)` it returns
the empty string; and a truncated over-long sentence does **not** get a
trailing ellipsis marker: for 600 copies of `a` with span `[0, 1)` the
sentence (501 chars) is cut at the end to 250 chars, yet the output is
exactly those 250 characters with no ellipsis appended. -/
theorem makeSnippet_counterexample :
    makeSnippet " ".toList 0 1 250 = [] ∧
    makeSnippet (List.replicate 600 'a') 0 1 250 = List.replicate 250 'a' := by
  refine ⟨by decide, by decide⟩

theorem truncateSentence_eq_noSuffix (sen : List Char) (ho : Nat)
    (h5 : 500 < sen.length) :
    truncateSentence sen ho = truncateSentenceNoSuffix sen ho := by
  simp only [truncateSentence, truncateSentenceNoSuffix]
  have hs1 : (jsTrim (sliceTake sen (ho - 250) (min sen.length (ho + 250)))).length ≤
      min sen.length (ho + 250) - (ho - 250) :=
    le_trans (jsTrim_length_le _) (sliceTake_length_le _ _ _)
  have hmin : 250 ≤ min sen.length (ho + 250) := by omega
  by_cases hes : 0 < ho - 250
  · simp only [if_pos hes]
    rw [if_neg (by simp only [List.length_cons]; omega)]
  · simp only [if_neg hes]
    rw [if_neg (by omega)]

theorem truncateSentenceNoSuffix_length (sen : List Char) (ho : Nat) :
    (truncateSentenceNoSuffix sen ho).length ≤ 501 := by
  simp only [truncateSentenceNoSuffix]
  have hs1 : (jsTrim (sliceTake sen (ho - 250) (min sen.length (ho + 250)))).length ≤
      min sen.length (ho + 250) - (ho - 250) :=
    le_trans (jsTrim_length_le _) (sliceTake_length_le _ _ _)
  by_cases hes : 0 < ho - 250
  · simp only [if_pos hes, List.length_cons]
    omega
  · simp only [if_neg hes]
    omega

/-- C4 (amended): for every text and every span, the snippet has length at
most 502 (500 characters plus at most 2 ellipsis markers, and it can be
empty when the span region is entirely whitespace); when the extracted
sentence exceeds 500 characters it is truncated to the ±250-character
window around the hit offset and trimmed, with an ellipsis prefixed iff
the front was cut — and no trailing ellipsis is ever appended (the
source's final guard compares against the already-truncated string, so it
never fires, as the equality with `makeSnippetNoSuffix` shows). -/
theorem makeSnippet_length_and_no_trailing_ellipsis (t : List Char) (s e : Nat) :
    (makeSnippet t s e 250).length ≤ 502 ∧
    makeSnippet t s e 250 = makeSnippetNoSuffix t s e 250 := by
  simp only [makeSnippet, makeSnippetNoSuffix]
  by_cases h5 : (snippetCore t s e 250).1.length > 500
  · rw [if_pos h5, if_pos h5, truncateSentence_eq_noSuffix _ _ h5]
    exact ⟨le_trans (truncateSentenceNoSuffix_length _ _) (by omega), rfl⟩
  · rw [if_neg h5, if_neg h5]
    exact ⟨by omega, rfl⟩

-- ==================== Matcher consumption lemmas ====================

/-- Syntactic check that a fragment always consumes at least one
character on any successful match. -/
def minOne : Rx → Bool
  | .eps => false
  | .pred _ => true
  | .seq a b => minOne a || minOne b
  | .alt a b => minOne a && minOne b
  | .opt _ => false
  | .plus _ => true
  | .rep _ lo _ => decide (1 ≤ lo)
  | .wb => false
  | .grp a => minOne a

theorem mem_repStates {st st' : MSt} {n lo hi : Nat}
    (h : st' ∈ repStates st n lo hi) :
    ∃ k, lo ≤ k ∧ k ≤ min n hi ∧ st'.pos = st.pos + k ∧ st'.cap = st.cap := by
  simp only [repStates] at h
  by_cases hml : min n hi < lo
  · rw [if_pos hml] at h
    simp at h
  · rw [if_neg hml] at h
    rcases List.mem_map.mp h with ⟨j, hj, rfl⟩
    have hjlt : j < min n hi - lo + 1 := List.mem_range.mp hj
    exact ⟨min n hi - j, by omega, by omega, rfl, rfl⟩

theorem matchRx_pos_le (t : List Char) (r : Rx) :
    ∀ st st', st' ∈ matchRx t r st → st.pos ≤ st'.pos := by
  induction r with
  | eps =>
    intro st st' h
    simp only [matchRx, List.mem_singleton] at h
    subst h
    exact le_refl _
  | pred p =>
    intro st st' h
    simp only [matchRx] at h
    cases hg : t[st.pos]? with
    | none => rw [hg] at h; simp at h
    | some c =>
      simp only [hg] at h
      split at h
      · simp only [List.mem_singleton] at h
        subst h
        show st.pos ≤ st.pos + 1
        omega
      · simp at h
  | seq a b iha ihb =>
    intro st st' h
    simp only [matchRx, List.mem_flatMap] at h
    obtain ⟨u, hu, hsu⟩ := h
    exact le_trans (iha st u hu) (ihb u st' hsu)
  | alt a b iha ihb =>
    intro st st' h
    simp only [matchRx, List.mem_append] at h
    rcases h with h | h
    · exact iha st st' h
    · exact ihb st st' h
  | opt a ih =>
    intro st st' h
    simp only [matchRx, List.mem_append, List.mem_singleton] at h
    rcases h with h | rfl
    · exact ih st st' h
    · exact le_refl _
  | plus p =>
    intro st st' h
    simp only [matchRx] at h
    obtain ⟨k, _, _, hpos, _⟩ := mem_repStates h
    omega
  | rep p lo hi =>
    intro st st' h
    simp only [matchRx] at h
    obtain ⟨k, _, _, hpos, _⟩ := mem_repStates h
    omega
  | wb =>
    intro st st' h
    simp only [matchRx] at h
    split at h
    · simp only [List.mem_singleton] at h
      subst h
      exact le_refl _
    · simp at h
  | grp a ih =>
    intro st st' h
    simp only [matchRx, List.mem_map] at h
    obtain ⟨u, hu, rfl⟩ := h
    exact ih st u hu

theorem matchRx_minOne_lt (t : List Char) (r : Rx) (hm : minOne r = true) :
    ∀ st st', st' ∈ matchRx t r st → st.pos < st'.pos := by
  induction r with
  | eps => simp [minOne] at hm
  | pred p =>
    intro st st' h
    simp only [matchRx] at h
    cases hg : t[st.pos]? with
    | none => rw [hg] at h; simp at h
    | some c =>
      simp only [hg] at h
      split at h
      · simp only [List.mem_singleton] at h
        subst h
        show st.pos < st.pos + 1
        omega
      · simp at h
  | seq a b iha ihb =>
    intro st st' h
    simp only [matchRx, List.mem_flatMap] at h
    obtain ⟨u, hu, hsu⟩ := h
    simp only [minOne, Bool.or_eq_true] at hm
    rcases hm with hm | hm
    · exact lt_of_lt_of_le (iha hm st u hu) (matchRx_pos_le t b u st' hsu)
    · exact lt_of_le_of_lt (matchRx_pos_le t a st u hu) (ihb hm u st' hsu)
  | alt a b iha ihb =>
    intro st st' h
    simp only [minOne, Bool.and_eq_true] at hm
    simp only [matchRx, List.mem_append] at h
    rcases h with h | h
    · exact iha hm.1 st st' h
    · exact ihb hm.2 st st' h
  | opt a ih => simp [minOne] at hm
  | plus p =>
    intro st st' h
    simp only [matchRx] at h
    obtain ⟨k, hk1, _, hpos, _⟩ := mem_repStates h
    omega
  | rep p lo hi =>
    intro st st' h
    simp only [minOne, decide_eq_true_eq] at hm
    simp only [matchRx] at h
    obtain ⟨k, hk1, _, hpos, _⟩ := mem_repStates h
    omega
  | wb => simp [minOne] at hm
  | grp a ih =>
    intro st st' h
    simp only [matchRx, List.mem_map] at h
    obtain ⟨u, hu, rfl⟩ := h
    simp only [minOne] at hm
    exact ih hm st u hu

theorem runLen_le (p : Char → Bool) (t : List Char) (i : Nat) :
    runLen p t i ≤ t.length - i := by
  have h1 : ((t.drop i).takeWhile p).length ≤ (t.drop i).length :=
    (List.takeWhile_sublist _).length_le
  simp only [runLen, List.length_drop] at *
  omega

theorem matchRx_pos_bound (t : List Char) (r : Rx) :
    ∀ st st', st' ∈ matchRx t r st → st'.pos = st.pos ∨ st'.pos ≤ t.length := by
  induction r with
  | eps =>
    intro st st' h
    simp only [matchRx, List.mem_singleton] at h
    subst h
    exact Or.inl rfl
  | pred p =>
    intro st st' h
    simp only [matchRx] at h
    cases hg : t[st.pos]? with
    | none => rw [hg] at h; simp at h
    | some c =>
      simp only [hg] at h
      split at h
      · simp only [List.mem_singleton] at h
        subst h
        have hlt : st.pos < t.length := by
          by_contra hc
          rw [List.getElem?_eq_none (by omega)] at hg
          exact absurd hg (by simp)
        refine Or.inr ?_
        show st.pos + 1 ≤ t.length
        omega
      · simp at h
  | seq a b iha ihb =>
    intro st st' h
    simp only [matchRx, List.mem_flatMap] at h
    obtain ⟨u, hu, hsu⟩ := h
    rcases ihb u st' hsu with h1 | h1
    · rcases iha st u hu with h2 | h2
      · exact Or.inl (h1.trans h2)
      · exact Or.inr (h1 ▸ h2)
    · exact Or.inr h1
  | alt a b iha ihb =>
    intro st st' h
    simp only [matchRx, List.mem_append] at h
    rcases h with h | h
    · exact iha st st' h
    · exact ihb st st' h
  | opt a ih =>
    intro st st' h
    simp only [matchRx, List.mem_append, List.mem_singleton] at h
    rcases h with h | rfl
    · exact ih st st' h
    · exact Or.inl rfl
  | plus p =>
    intro st st' h
    simp only [matchRx] at h
    obtain ⟨k, _, hk2, hpos, _⟩ := mem_repStates h
    have := runLen_le p t st.pos
    omega
  | rep p lo hi =>
    intro st st' h
    simp only [matchRx] at h
    obtain ⟨k, _, hk2, hpos, _⟩ := mem_repStates h
    have := runLen_le p t st.pos
    omega
  | wb =>
    intro st st' h
    simp only [matchRx] at h
    split at h
    · simp only [List.mem_singleton] at h
      subst h
      exact Or.inl rfl
    · simp at h
  | grp a ih =>
    intro st st' h
    simp only [matchRx, List.mem_map] at h
    obtain ⟨u, hu, rfl⟩ := h
    exact ih st u hu

theorem execAux_some (r : Rx) (t : List Char) (hm : minOne r = true) :
    ∀ fuel i s e cap, execAux r t i fuel = some (s, e, cap) →
      i ≤ s ∧ s < e ∧ e ≤ t.length := by
  intro fuel
  induction fuel with
  | zero => intro i s e cap h; simp [execAux] at h
  | succ n ih =>
    intro i s e cap h
    simp only [execAux] at h
    cases hmtch : matchRx t r { pos := i, cap := none } with
    | nil =>
      rw [hmtch] at h
      have := ih (i + 1) s e cap h
      exact ⟨by omega, this.2⟩
    | cons st rest =>
      rw [hmtch] at h
      simp only [Option.some.injEq, Prod.mk.injEq] at h
      obtain ⟨rfl, rfl, rfl⟩ := h
      have hmem : st ∈ matchRx t r { pos := i, cap := none } := by
        rw [hmtch]; exact List.mem_cons_self _ _
      have hlt := matchRx_minOne_lt t r hm _ st hmem
      have hbd := matchRx_pos_bound t r _ st hmem
      simp only at hlt hbd
      exact ⟨le_refl _, hlt, by omega⟩

theorem findAllAux_wf (r : Rx) (t : List Char) (hm : minOne r = true) :
    ∀ fuel i x, x ∈ findAllAux r t i fuel → x.1 < x.2.1 ∧ x.2.1 ≤ t.length := by
  intro fuel
  induction fuel with
  | zero => intro i x h; simp [findAllAux] at h
  | succ n ih =>
    intro i x h
    simp only [findAllAux] at h
    cases hx : execRxFrom r t i with
    | none => rw [hx] at h; simp at h
    | some y =>
      rw [hx] at h
      obtain ⟨s, e, cap⟩ := y
      simp only [List.mem_cons] at h
      rcases h with rfl | h
      · have := execAux_some r t hm _ i s e cap hx
        exact ⟨this.2.1, this.2.2⟩
      · exact ih _ x h

theorem findAll_match_len (r : Rx) (t : List Char) (hm : minOne r = true) :
    ∀ x ∈ findAll r t, 1 ≤ x.2.length := by
  intro x hx
  simp only [findAll, findAllRaw, List.mem_map] at hx
  obtain ⟨y, hy, rfl⟩ := hx
  have hwf := findAllAux_wf r t hm _ 0 y hy
  simp only [sliceTake, List.length_take, List.length_drop]
  omega

-- ================== Raw hits are well-formed ========================

theorem pushAllHits_wf (t : List Char) (ty : RiskType) (r : Rx)
    (hm : minOne r = true) :
    ∀ h ∈ pushAllHits t ty r, h.start < h.stop := by
  intro h hh
  simp only [pushAllHits, List.mem_map] at hh
  obtain ⟨x, hx, rfl⟩ := hh
  have := findAll_match_len r t hm x hx
  simp only []
  omega

theorem pushAllHits_type (t : List Char) (ty : RiskType) (r : Rx) :
    ∀ h ∈ pushAllHits t ty r, h.type = ty := by
  intro h hh
  simp only [pushAllHits, List.mem_map] at hh
  obtain ⟨x, hx, rfl⟩ := hh
  rfl

-- ====================== Resolver invariant ==========================

theorem hitLe_trans : ∀ a b c : Hit,
    hitLe a b = true → hitLe b c = true → hitLe a c = true := by
  intro a b c hab hbc
  simp only [hitLe, decide_eq_true_eq] at *
  omega

theorem hitLe_total : ∀ a b : Hit, hitLe a b = true ∨ hitLe b a = true := by
  intro a b
  simp only [hitLe, decide_eq_true_eq]
  omega

theorem mem_dedupeStep {acc : List Hit} {h x : Hit}
    (hx : x ∈ dedupeStep acc h) : x = h ∨ x ∈ acc := by
  cases acc with
  | nil => simp [dedupeStep] at hx; exact Or.inl hx
  | cons last rest =>
    simp only [dedupeStep] at hx
    split_ifs at hx with hov hrep
    · rcases List.mem_cons.mp hx with rfl | hx
      · exact Or.inl rfl
      · exact Or.inr (List.mem_cons_of_mem _ hx)
    · exact Or.inr hx
    · rcases List.mem_cons.mp hx with rfl | hx
      · exact Or.inl rfl
      · exact Or.inr hx

theorem dedupe_foldl_mem :
    ∀ (l acc : List Hit) (x : Hit), x ∈ l.foldl dedupeStep acc → x ∈ l ∨ x ∈ acc := by
  intro l
  induction l with
  | nil => intro acc x h; simp at h; exact Or.inr h
  | cons hd l ih =>
    intro acc x h
    simp only [List.foldl_cons] at h
    rcases ih (dedupeStep acc hd) x h with h1 | h1
    · exact Or.inl (List.mem_cons_of_mem _ h1)
    · rcases mem_dedupeStep h1 with rfl | h2
      · exact Or.inl (List.mem_cons_self _ _)
      · exact Or.inr h2

theorem dedupe_foldl_inv :
    ∀ (l acc : List Hit),
      l.Pairwise (fun a b => a.start ≤ b.start) →
      (∀ x ∈ l, x.start < x.stop) →
      (∀ x ∈ acc, x.start < x.stop) →
      List.Chain' (fun x y => y.stop < x.start) acc →
      (∀ a, acc.head? = some a → ∀ x ∈ l, a.start ≤ x.start) →
      List.Chain' (fun x y => y.stop < x.start) (l.foldl dedupeStep acc) ∧
      (∀ x ∈ l.foldl dedupeStep acc, x.start < x.stop) := by
  intro l
  induction l with
  | nil =>
    intro acc _ _ haccwf hchain _
    exact ⟨hchain, haccwf⟩
  | cons h l ih =>
    intro acc hsort hwf haccwf hchain hhead
    obtain ⟨hh_le, hsort2⟩ := List.pairwise_cons.mp hsort
    have hwf_h : h.start < h.stop := hwf h (List.mem_cons_self _ _)
    have hwf2 : ∀ x ∈ l, x.start < x.stop :=
      fun x hx => hwf x (List.mem_cons_of_mem _ hx)
    simp only [List.foldl_cons]
    cases acc with
    | nil =>
      refine ih [h] hsort2 hwf2 ?_ ?_ ?_
      · intro x hx
        simp only [List.mem_singleton] at hx
        subst hx
        exact hwf_h
      · simp
      · intro a ha x hx
        simp only [List.head?_cons, Option.some.injEq] at ha
        subst ha
        exact hh_le x hx
    | cons last rest =>
      have hlast_le : last.start ≤ h.start :=
        hhead last rfl h (List.mem_cons_self _ _)
      have hlast_le_l : ∀ x ∈ l, last.start ≤ x.start :=
        fun x hx => hhead last rfl x (List.mem_cons_of_mem _ hx)
      simp only [dedupeStep]
      split_ifs with hov hrep
      · -- overlap, h strictly longer: replace last with h
        refine ih (h :: rest) hsort2 hwf2 ?_ ?_ ?_
        · intro x hx
          rcases List.mem_cons.mp hx with rfl | hx
          · exact hwf_h
          · exact haccwf x (List.mem_cons_of_mem _ hx)
        · cases rest with
          | nil => simp
          | cons r2 rest2 =>
            have hcc := List.chain'_cons.mp hchain
            exact List.chain'_cons.mpr ⟨by omega, hcc.2⟩
        · intro a ha x hx
          simp only [List.head?_cons, Option.some.injEq] at ha
          subst ha
          exact hh_le x hx
      · -- overlap, keep the accepted span
        refine ih (last :: rest) hsort2 hwf2 haccwf hchain ?_
        intro a ha x hx
        simp only [List.head?_cons, Option.some.injEq] at ha
        subst ha
        exact hlast_le_l x hx
      · -- no overlap: accept h on top
        have hgap : last.stop < h.start := by
          rw [not_and_or] at hov
          rcases hov with hov | hov
          · omega
          · omega
        refine ih (h :: last :: rest) hsort2 hwf2 ?_ ?_ ?_
        · intro x hx
          rcases List.mem_cons.mp hx with rfl | hx
          · exact hwf_h
          · exact haccwf x hx
        · exact List.chain'_cons.mpr ⟨hgap, hchain⟩
        · intro a ha x hx
          simp only [List.head?_cons, Option.some.injEq] at ha
          subst ha
          exact hh_le x hx

theorem dedupeOverlaps_spec (hits : List Hit)
    (hwf : ∀ x ∈ hits, x.start < x.stop) :
    List.Chain' (fun a b => a.stop < b.start) (dedupeOverlaps hits) ∧
    ∀ x ∈ dedupeOverlaps hits, x ∈ hits ∧ x.start < x.stop := by
  unfold dedupeOverlaps
  have hsorted : (stableSort hitLe hits).Pairwise (fun a b => a.start ≤ b.start) := by
    refine (pairwise_stableSort hitLe_trans hitLe_total hits).imp ?_
    intro a b hab
    simp only [hitLe, decide_eq_true_eq] at hab
    omega
  have hwf2 : ∀ x ∈ stableSort hitLe hits, x.start < x.stop :=
    fun x hx => hwf x (mem_stableSort.mp hx)
  have hind := dedupe_foldl_inv (stableSort hitLe hits) [] hsorted hwf2
    (by simp) (by simp) (by simp)
  refine ⟨?_, ?_⟩
  · rw [List.chain'_reverse]
    exact hind.1
  · intro x hx
    rw [List.mem_reverse] at hx
    rcases dedupe_foldl_mem _ [] x hx with hmem | habs
    · exact ⟨mem_stableSort.mp hmem, hind.2 x hx⟩
    · simp at habs

theorem chain'_pairwise_of_wf :
    ∀ l : List Hit, List.Chain' (fun a b => a.stop < b.start) l →
      (∀ x ∈ l, x.start < x.stop) →
      l.Pairwise (fun a b => a.start ≤ b.start ∧ a.stop < b.start) := by
  intro l
  induction l with
  | nil => simp
  | cons x l ih =>
    intro hc hwf
    have hpl := ih hc.tail (fun y hy => hwf y (List.mem_cons_of_mem x hy))
    refine List.pairwise_cons.mpr ⟨?_, hpl⟩
    intro y hy
    cases l with
    | nil => simp at hy
    | cons z l2 =>
      have hxz : x.stop < z.start := (List.chain'_cons.mp hc).1
      have hwx : x.start < x.stop := hwf x (List.mem_cons_self _ _)
      rcases List.mem_cons.mp hy with rfl | hy2
      · exact ⟨by omega, hxz⟩
      · have hz := (List.pairwise_cons.mp hpl).1 y hy2
        have hwz : z.start < z.stop := hwf z (by simp)
        exact ⟨by omega, by omega⟩


-- ====================== C1 and C10 theorems =========================

/-- C1: for every input text, the resolved span set returned by the scan
(overlap deduplication followed by capping) is sorted by `start`
ascending, pairwise non-overlapping (every earlier span ends strictly
before every later span starts), and has length at most
`MAX_HIGHLIGHTS = 50`. -/
theorem rulesScan_hits_sorted_nonoverlapping_capped (t : List Char) :
    (rulesScan t).hits.Pairwise (fun a b => a.start ≤ b.start ∧ a.stop < b.start) ∧
    (rulesScan t).hits.length ≤ MAX_HIGHLIGHTS := by
  have hwf : ∀ x ∈ (pushAllHits t RiskType.auto_renewal AUTO_RENEW ++
      pushAllHits t RiskType.arbitration ARBITRATION ++
      pushAllHits t RiskType.class_action CLASS_ACTION ++
      pushAllHits t RiskType.cancellation CANCELLATION ++
      pushAllHits t RiskType.fees FEES), x.start < x.stop := by
    intro x hx
    simp only [List.mem_append] at hx
    rcases hx with ((((hx | hx) | hx) | hx) | hx)
    · exact pushAllHits_wf t _ _ (by decide) x hx
    · exact pushAllHits_wf t _ _ (by decide) x hx
    · exact pushAllHits_wf t _ _ (by decide) x hx
    · exact pushAllHits_wf t _ _ (by decide) x hx
    · exact pushAllHits_wf t _ _ (by decide) x hx
  obtain ⟨hchain, hmem⟩ := dedupeOverlaps_spec _ hwf
  have hpw := chain'_pairwise_of_wf _ hchain (fun x hx => (hmem x hx).2)
  simp only [rulesScan]
  constructor
  · split_ifs with hlen
    · exact hpw.sublist (List.take_sublist _ _)
    · exact hpw
  · split_ifs with hlen
    · simpa using List.length_take_le _ _
    · simp only [MAX_HIGHLIGHTS] at *
      omega

/-- C10: for every input text, no span in the scan result has type
`data_sharing`, even though `data_sharing` is a member of the `RiskType`
enumeration: the span finder only runs the `auto_renewal`, `arbitration`,
`class_action`, `cancellation` and `fees` detectors (data-sharing
language is surfaced only through the heatmap). -/
theorem rulesScan_no_data_sharing_span (t : List Char) :
    (rulesScan t).hits.all (fun h => decide (h.type ≠ RiskType.data_sharing)) = true := by
  rw [List.all_eq_true]
  intro h hh
  simp only [rulesScan] at hh
  have hmem : h ∈ dedupeOverlaps (pushAllHits t RiskType.auto_renewal AUTO_RENEW ++
      pushAllHits t RiskType.arbitration ARBITRATION ++
      pushAllHits t RiskType.class_action CLASS_ACTION ++
      pushAllHits t RiskType.cancellation CANCELLATION ++
      pushAllHits t RiskType.fees FEES) := by
    split at hh
    · exact List.mem_of_mem_take hh
    · exact hh
  unfold dedupeOverlaps at hmem
  rw [List.mem_reverse] at hmem
  rcases dedupe_foldl_mem _ [] h hmem with hmem2 | habs
  · rw [mem_stableSort] at hmem2
    simp only [List.mem_append] at hmem2
    rcases hmem2 with ((((hx | hx) | hx) | hx) | hx)
    · rw [pushAllHits_type t _ _ h hx]; decide
    · rw [pushAllHits_type t _ _ h hx]; decide
    · rw [pushAllHits_type t _ _ h hx]; decide
    · rw [pushAllHits_type t _ _ h hx]; decide
    · rw [pushAllHits_type t _ _ h hx]; decide
  · simp at habs

-- =================== Annotation clearing (content.ts) ===============

mutual
/-- DOM model for `content.ts`: an element node with tag, attributes and
children, or a text node. -/
inductive DNode where
  | text (s : String) : DNode
  | elem (tag : String) (attrs : List (String × String)) (children : DForest) : DNode
/-- A sibling list of DOM nodes (the document is the forest of the
root's children, so every mark found inside it has a parent). -/
inductive DForest where
  | nil : DForest
  | cons (d : DNode) (ds : DForest) : DForest
end

/-- `getAttribute`. -/
def attrLookup (attrs : List (String × String)) (k : String) : Option String :=
  (attrs.find? (fun e => decide (e.1 = k))).map (fun e => e.2)

/-- The selector `mark[data-tc="risk"]` of `clearHighlights` (also the
check in `isInsideOurMark`). -/
def isRiskMark (tag : String) (attrs : List (String × String)) : Bool :=
  tag == "mark" && attrLookup attrs "data-tc" == some "risk"

def dfAppend : DForest → DForest → DForest
  | .nil, g => g
  | .cons d ds, g => .cons d (dfAppend ds g)

mutual
/-- `clearHighlights` of `content.ts` on one node: a risk mark is
replaced by its (recursively cleared) children — the unwrap `while
(mark.firstChild) parent.insertBefore(mark.firstChild, mark);
parent.removeChild(mark)` — and counted; any other element stays with
cleared children; text nodes are untouched.  Returns the replacement
sibling list and the number of marks removed. -/
def clearNode : DNode → DForest × Nat
  | .text s => (.cons (.text s) .nil, 0)
  | .elem tag attrs children =>
    let r := clearHighlights children
    if isRiskMark tag attrs then (r.1, r.2 + 1)
    else (.cons (.elem tag attrs r.1) .nil, r.2)
/-- `clearHighlights` of `content.ts` over a sibling forest. -/
def clearHighlights : DForest → DForest × Nat
  | .nil => (.nil, 0)
  | .cons d ds =>
    let a := clearNode d
    let b := clearHighlights ds
    (dfAppend a.1 b.1, a.2 + b.2)
end

mutual
/-- Number of risk marks in a node (what `querySelectorAll` would find). -/
def countMarksNode : DNode → Nat
  | .text _ => 0
  | .elem tag attrs children =>
    (if isRiskMark tag attrs then 1 else 0) + countMarksForest children
/-- Number of risk marks in a forest. -/
def countMarksForest : DForest → Nat
  | .nil => 0
  | .cons d ds => countMarksNode d + countMarksForest ds
end

theorem countMarksForest_dfAppend :
    ∀ a b : DForest,
      countMarksForest (dfAppend a b) = countMarksForest a + countMarksForest b
  | .nil, b => by simp [dfAppend, countMarksForest]
  | .cons d ds, b => by
    simp only [dfAppend, countMarksForest, countMarksForest_dfAppend ds b]
    omega

mutual
theorem clearNode_count : ∀ d : DNode, (clearNode d).2 = countMarksNode d
  | .text s => rfl
  | .elem tag attrs children => by
    simp only [clearNode, countMarksNode, clearHighlights_count_eq children]
    split_ifs <;> omega
theorem clearHighlights_count_eq :
    ∀ f : DForest, (clearHighlights f).2 = countMarksForest f
  | .nil => rfl
  | .cons d ds => by
    simp only [clearHighlights, countMarksForest, clearNode_count d,
      clearHighlights_count_eq ds]
end

mutual
theorem clearNode_clean : ∀ d : DNode, countMarksForest (clearNode d).1 = 0
  | .text s => rfl
  | .elem tag attrs children => by
    simp only [clearNode]
    split_ifs with hm
    · exact clearHighlights_clean children
    · simp [countMarksForest, countMarksNode, hm, clearHighlights_clean children]
theorem clearHighlights_clean :
    ∀ f : DForest, countMarksForest (clearHighlights f).1 = 0
  | .nil => rfl
  | .cons d ds => by
    simp only [clearHighlights, countMarksForest_dfAppend, clearNode_clean d,
      clearHighlights_clean ds]
end

mutual
theorem clearNode_of_clean :
    ∀ d : DNode, countMarksNode d = 0 → clearNode d = (.cons d .nil, 0)
  | .text s, _ => rfl
  | .elem tag attrs children, h => by
    simp only [countMarksNode] at h
    cases hm : isRiskMark tag attrs with
    | true => rw [hm] at h; simp at h
    | false =>
      rw [hm] at h
      have hc : countMarksForest children = 0 := by simpa using h
      simp only [clearNode, hm, clearHighlights_of_clean children hc]
      simp
theorem clearHighlights_of_clean :
    ∀ f : DForest, countMarksForest f = 0 → clearHighlights f = (f, 0)
  | .nil, _ => rfl
  | .cons d ds, h => by
    simp only [countMarksForest] at h
    have h1 : countMarksNode d = 0 := by omega
    have h2 : countMarksForest ds = 0 := by omega
    simp only [clearHighlights, clearNode_of_clean d h1,
      clearHighlights_of_clean ds h2]
    simp [dfAppend]
end

/-- C9: on any document tree the clear operation unwraps every existing
risk marker and returns their count, and it is idempotent: a second clear
immediately after a clear finds no markers, removes 0 and leaves the
document unchanged. -/
theorem clearHighlights_count_and_idempotent (doc : DForest) :
    (clearHighlights doc).2 = countMarksForest doc ∧
    clearHighlights (clearHighlights doc).1 = ((clearHighlights doc).1, 0) :=
  ⟨clearHighlights_count_eq doc,
   clearHighlights_of_clean _ (clearHighlights_clean doc)⟩

end TC
